import Mathlib

/-!
Shallow embedding of the env-file parser in `pkg/dotenv.go` of
codescalersinternships/dotenv-eyadhussein.

Strings are modelled as `List Char` (the inputs of interest are ASCII, so
Go's byte indexing and Lean's character lists agree).  Go's runtime panic
on an out-of-range slice (`match[2:len(match)-1]` in `substituteVariables`)
is modelled by `Option`/a dedicated `Res.panic` constructor.  The three
regular expressions of the source are compiled by hand into scanners with
RE2's leftmost-first semantics for those concrete patterns.
-/

namespace Dotenv

/-- Error kinds of the parser, mirroring the sentinel errors of dotenv.go
(`inValidLine`, `inValidKey`, `unterminatedMultiLine`, `unterminatedQuote`,
`unexpectedCharacters`).  `invalidKey` carries the offending key, as the Go
code formats it into the error. -/
inductive Err : Type where
  | invalidLine : Err
  | invalidKey : List Char → Err
  | unterminatedMultiLine : Err
  | unterminatedQuote : Err
  | unexpectedCharacters : Err
deriving DecidableEq, Repr

/-- Outcome of running a piece of the Go parser: a value, a returned error,
or a runtime panic (Go slice out of range). -/
inductive Res (α : Type) : Type where
  | ok : α → Res α
  | err : Err → Res α
  | panic : Res α
deriving DecidableEq, Repr

/-- The variable mapping (Go `map[string]string`), as an association list;
`lookupEnv` returns the most recent binding, `envInsert` shadows, which
gives exactly the lookup semantics of overwriting map assignment. -/
def Env : Type := List (List Char × List Char)

instance : DecidableEq Env := by unfold Env; infer_instance

/-- Go map read `envVars[name]` (presence + value). -/
def lookupEnv : Env → List Char → Option (List Char)
  | [], _ => none
  | (k, v) :: e, n => if k = n then some v else lookupEnv e n

/-- Go map write `envVars[key] = val` (overwrites for lookup purposes). -/
def envInsert (e : Env) (k v : List Char) : Env := (k, v) :: e

/-- The ASCII white-space characters accepted by Go's `unicode.IsSpace`
(the non-ASCII Unicode spaces are irrelevant to the inputs considered). -/
def isSpaceGo (c : Char) : Bool :=
  c = ' ' || c = '\t' || c = '\n' || c = '\x0b' || c = '\x0c' || c = '\r'

/-- Model of `strings.HasPrefix s p` (argument order: pattern first). -/
def startsWithL : List Char → List Char → Bool
  | [], _ => true
  | _ :: _, [] => false
  | a :: p, b :: s => a = b && startsWithL p s

/-- Model of `strings.HasSuffix s p`. -/
def endsWithL (p s : List Char) : Bool := startsWithL p.reverse s.reverse

/-- Model of `strings.TrimPrefix s p`. -/
def stripStart (p s : List Char) : List Char :=
  if startsWithL p s then s.drop p.length else s

/-- Model of `strings.TrimSuffix s p`. -/
def stripEnd (p s : List Char) : List Char :=
  if endsWithL p s then s.take (s.length - p.length) else s

/-- Model of `strings.TrimSpace`. -/
def trimSpace (s : List Char) : List Char :=
  ((s.dropWhile isSpaceGo).reverse.dropWhile isSpaceGo).reverse

/-- Model of `strings.SplitN(line, "=", 2)`: `none` when the line has no `=`
(Go returns a one-element slice), otherwise the parts around the first
`=`. -/
def splitEq : List Char → Option (List Char × List Char)
  | [] => none
  | c :: r =>
    if c = '=' then some ([], r)
    else (fun p => (c :: p.1, p.2)) <$> splitEq r

/-- Character class `[a-zA-Z_]`, the first bracket of
`keyRegex = ^[a-zA-Z_]+[a-zA-Z0-9_]*`. -/
def isKeyStartChar (c : Char) : Bool :=
  ('a' ≤ c && c ≤ 'z') || ('A' ≤ c && c ≤ 'Z') || c = '_'

/-- Model of `keyRegex.MatchString key` for `keyRegex = ^[a-zA-Z_]+[a-zA-Z0-9_]*`.
The pattern is anchored only at the start; the trailing `[a-zA-Z0-9_]*`
can always match the empty string, so a match exists exactly when the
leading `[a-zA-Z_]+` consumes at least one character at position 0. -/
def keyRegexMatch (s : List Char) : Bool :=
  !(s.takeWhile isKeyStartChar).isEmpty

/-- Character class `[A-Z0-9_]`, the name class of
`substituteVarRegex = (\\)?(\$)(\()?\{?([A-Z0-9_]+)?\}?`. -/
def isNameChar (c : Char) : Bool :=
  ('A' ≤ c && c ≤ 'Z') || ('0' ≤ c && c ≤ '9') || c = '_'

/-- Consume one optional literal character (a greedy `x?` regex piece):
returns the consumed part and the rest. -/
def eatChar (c : Char) (s : List Char) : List Char × List Char :=
  match s with
  | [] => ([], [])
  | x :: t => if x = c then ([x], t) else ([], x :: t)

/-- Having matched the mandatory `(\$)` of `substituteVarRegex`, greedily
match the remainder `(\()?\{?([A-Z0-9_]+)?\}?` (all optional pieces, so no
backtracking can occur): returns the consumed text and the rest of the
input. -/
def matchAfterDollar (s : List Char) : List Char × List Char :=
  let r1 := eatChar '(' s
  let r2 := eatChar '{' r1.2
  let nm := r2.2.takeWhile isNameChar
  let s2 := r2.2.dropWhile isNameChar
  let r3 := eatChar '}' s2
  (r1.1 ++ r2.1 ++ nm ++ r3.1, r3.2)

/-- The replacement Go computes for a whole regex match `m`:
`envVars[m[2:len(m)-1]]`, defaulting to `""` when the name is absent.
When `len(m) < 3` the slice `m[2:len(m)-1]` has its low bound above its
high bound and Go panics — modelled as `none`. -/
def tokenLookup (m : List Char) (env : Env) : Option (List Char) :=
  if m.length < 3 then none
  else some ((lookupEnv env ((m.drop 2).take (m.length - 3))).getD [])

/-- Fuelled scanner for
`substituteVarRegex.ReplaceAllStringFunc`: walks the string left to right;
a match starts at a position holding `$`, or holding `\` directly followed
by `$` (the leftmost-first semantics of `(\\)?(\$)...` takes the optional
backslash when it is available, since that match starts earlier).  Fuel
`≥ length` always suffices; the `0, _ :: _` case is unreachable then. -/
def substFuel (env : Env) : Nat → List Char → Option (List Char)
  | _, [] => some []
  | 0, _ :: _ => none
  | f + 1, c :: rest =>
    if c = '$' then
      let md := matchAfterDollar rest
      match tokenLookup ('$' :: md.1) env with
      | none => none
      | some r => (substFuel env f md.2).map (fun t => r ++ t)
    else if c = '\\' ∧ rest.head? = some '$' then
      let md := matchAfterDollar rest.tail
      match tokenLookup ('\\' :: '$' :: md.1) env with
      | none => none
      | some r => (substFuel env f md.2).map (fun t => r ++ t)
    else (substFuel env f rest).map (fun t => c :: t)

/-- Model of `substituteVariables(line, envVars)` of dotenv.go; `none` is the Go
runtime panic raised by `match[2:len(match)-1]` on a match shorter than 3
characters (e.g. `$A`, `\$`, a lone `$`). -/
def substituteVariables (s : List Char) (env : Env) : Option (List Char) :=
  substFuel env s.length s

/-- Replacement for a two-character match `\c` of `escapeRegex = \\.`:
the five control escapes decode, any other match is kept verbatim. -/
def escRepl (c : Char) : List Char :=
  if c = 'n' then ['\n']
  else if c = 'r' then ['\r']
  else if c = 't' then ['\t']
  else if c = 'f' then ['\x0c']
  else if c = 'b' then ['\x08']
  else ['\\', c]

/-- First pass of `parseEscape`: `escapeRegex.ReplaceAllStringFunc` for
`\\.` — note RE2's `.` does not match a newline, so a backslash directly
before a newline is left alone. -/
def escPass1 : List Char → List Char
  | [] => []
  | ['\\'] => ['\\']
  | '\\' :: c :: rest =>
    if c = '\n' then '\\' :: escPass1 (c :: rest)
    else escRepl c ++ escPass1 rest
  | c :: rest => c :: escPass1 rest

/-- Second pass of `parseEscape`: `unescapeRegex.ReplaceAllString` for
`\\([^$])` with replacement `$1` — drops a backslash before any character
except `$` (negated classes do match a newline in RE2). -/
def escPass2 : List Char → List Char
  | [] => []
  | ['\\'] => ['\\']
  | '\\' :: c :: rest =>
    if c = '$' then '\\' :: escPass2 (c :: rest)
    else c :: escPass2 rest
  | c :: rest => c :: escPass2 rest

/-- Model of `parseEscape` of dotenv.go: decode `\n \r \t \f \b`, then unescape
every remaining backslash-prefixed character other than `$`. -/
def parseEscape (s : List Char) : List Char := escPass2 (escPass1 s)

/-- The marker `"""`. -/
def dq3 : List Char := ['"', '"', '"']

/-- The marker `'''`. -/
def sq3 : List Char := ['\'', '\'', '\'']

/-- The literal prefix `export ` stripped by `Parse`. -/
def exportSp : List Char := ['e', 'x', 'p', 'o', 'r', 't', ' ']

/-- Model of `isMultiLine` of dotenv.go. -/
def isMultiLine (val : List Char) : Bool :=
  startsWithL dq3 val || startsWithL sq3 val

/-- The scanner loop of the multi-line branch of `extractValue`: pull
lines until one ends with the opening marker; such a line makes the
accumulated value (one trailing `\n` trimmed) be returned at once — its
own content is never appended.  A non-closing line is (vacuously)
`TrimSuffix`-ed twice, substituted only for the `"""` marker, escape
decoded, and appended followed by `\n`.  An exhausted source is
`unterminatedMultiLine`. -/
def multiLoop (marker : List Char) (env : Env) (acc : List Char) :
    List (List Char) → Res (List Char × List (List Char))
  | [] => .err .unterminatedMultiLine
  | l :: rest =>
    if endsWithL marker l then .ok (stripEnd ['\n'] acc, rest)
    else
      match (if marker = dq3
             then substituteVariables (stripEnd marker (stripEnd marker l)) env
             else some (stripEnd marker (stripEnd marker l))) with
      | none => .panic
      | some l2 => multiLoop marker env (acc ++ parseEscape l2 ++ ['\n']) rest

/-- The closing-quote search of the single-line quoted branch of
`extractValue`: Go's loop reassigns `val` at the first index `i ≥ 1` with
`val[i] = prefix` and `val[i-1] ≠ '\\'` and then necessarily exits (the
reassigned value is shorter than the running index).  `prev` threads the
previous character; `some (inner, after)` are `val[1:i]` and `val[i+1:]`,
`none` means no unescaped closing quote exists. -/
def scanClose (q : Char) (prev : Char) : List Char → Option (List Char × List Char)
  | [] => none
  | c :: rest =>
    if c = q ∧ prev ≠ '\\' then some ([], rest)
    else (fun p => (c :: p.1, p.2)) <$> scanClose q c rest

/-- The single-line quoted branch of `extractValue` (`q` is the opening
quote character, `t` the text after it).  Order of effects mirrors the Go
code: unterminated check, then substitution/escape decoding for `"`, then
the trailing-remainder check. -/
def singleQuoted (q : Char) (t : List Char) (lines : List (List Char)) (env : Env) :
    Res (List Char × List (List Char)) :=
  match scanClose q q t with
  | none => .err .unterminatedQuote
  | some (inner, after) =>
    if startsWithL [q] inner then .err .unterminatedQuote
    else
      match (if q = '"' then (substituteVariables inner env).map parseEscape
             else some inner) with
      | none => .panic
      | some v =>
        if trimSpace (trimSpace after) ≠ [] ∧ startsWithL ['#'] (trimSpace after) = false
        then .err .unexpectedCharacters
        else .ok (v, lines)

/-- Model of `extractValue(val, scanner, currentEnvVars)` of dotenv.go.  The line
source is the list of not-yet-consumed lines; the result carries the lines
left unconsumed. -/
def extractValue (val : List Char) (lines : List (List Char)) (env : Env) :
    Res (List Char × List (List Char)) :=
  if startsWithL ['\''] val = false ∧ startsWithL ['"'] val = false then
    match substituteVariables (trimSpace (val.takeWhile (fun c => c ≠ '#'))) env with
    | none => .panic
    | some s => .ok (parseEscape s, lines)
  else if isMultiLine val then
    multiLoop (if startsWithL dq3 val then dq3 else sq3) env [] lines
  else
    singleQuoted (if startsWithL ['\''] val then '\'' else '"') (val.drop 1) lines env

/-- Fuelled main loop of `Parse`: per line, skip comments (`#` as the very
first raw character) and blank lines, strip an `export ` prefix, split at
the first `=` (`invalidLine` when absent), trim and validate the key
(`invalidKey` when `keyRegex` does not match), extract the value and store
it.  Fuel `≥ number of lines` always suffices. -/
def parseLoopF : Nat → List (List Char) → Env → Res Env
  | _, [], env => .ok env
  | 0, _ :: _, _ => .err .invalidLine
  | f + 1, l :: rest, env =>
    if startsWithL ['#'] l || (trimSpace l).isEmpty then parseLoopF f rest env
    else
      match splitEq (stripStart exportSp l) with
      | none => .err .invalidLine
      | some kv =>
        if keyRegexMatch (trimSpace kv.1) = false then .err (.invalidKey (trimSpace kv.1))
        else
          match extractValue kv.2 rest env with
          | .panic => .panic
          | .err e => .err e
          | .ok vr => parseLoopF f vr.2 (envInsert env (trimSpace kv.1) vr.1)

/-- Model of `Parse` of dotenv.go, on an explicit list of input lines (the
`bufio.Scanner` hands lines with terminators stripped). -/
def Parse (lns : List (List Char)) : Res Env := parseLoopF lns.length lns []

/-- Modelled from the spec: a value subject to substitution, viewed as a
sequence of literal segments and `${NAME}` reference tokens (the
substitution grammar of §4.4). -/
inductive SubTok : Type where
  | lit : List Char → SubTok
  | var : List Char → SubTok

/-- Modelled from the spec: the on-disk text of a token — a literal
segment is itself, a reference `var n` is `${` ++ n ++ `}`. -/
def renderTok : SubTok → List Char
  | .lit s => s
  | .var n => '$' :: '{' :: (n ++ ['}'])

/-- Modelled from the spec: the substituted form of one token — a literal
is kept, a reference is replaced by the mapping's value when present and
by the empty string when absent (§4.4). -/
def substTokSem (env : Env) : SubTok → List Char
  | .lit s => s
  | .var n => (lookupEnv env n).getD []

/-- Well-formedness of a token, per the claim: literal segments contain no
`$` (so they contain no further reference) and do not end in a backslash
(so the following reference is non-escaped); names are nonempty and drawn
from `[A-Z0-9_]`. -/
def goodTok : SubTok → Prop
  | .lit s => ('$' ∉ s) ∧ s.getLast? ≠ some '\\'
  | .var n => n ≠ [] ∧ ∀ c ∈ n, isNameChar c = true

/-- Modelled from the spec: "the N lines joined by newline" (§8,
multi-line round-trip). -/
def joinedByNewline : List (List Char) → List Char
  | [] => []
  | [l] => l
  | l :: ls => l ++ '\n' :: joinedByNewline ls

theorem eatChar_snd_length (c : Char) (s : List Char) :
    (eatChar c s).2.length ≤ s.length := by
  cases s with
  | nil => simp [eatChar]
  | cons x t =>
    by_cases h : x = c <;> simp [eatChar, h]

theorem matchAfterDollar_snd_length (s : List Char) :
    (matchAfterDollar s).2.length ≤ s.length := by
  unfold matchAfterDollar
  refine le_trans (eatChar_snd_length '}' _) ?_
  refine le_trans (List.dropWhile_sublist _).length_le ?_
  refine le_trans (eatChar_snd_length '{' _) ?_
  exact eatChar_snd_length '(' s

theorem substFuel_congr (env : Env) :
    ∀ (f g : Nat) (s : List Char), s.length ≤ f → s.length ≤ g →
      substFuel env f s = substFuel env g s := by
  intro f
  induction f with
  | zero =>
    intro g s hf _
    have : s = [] := List.length_eq_zero.mp (Nat.le_zero.mp hf)
    subst this
    cases g <;> rfl
  | succ f ih =>
    intro g s hf hg
    cases s with
    | nil => cases g <;> rfl
    | cons c rest =>
      cases g with
      | zero => exact absurd hg (by simp)
      | succ g =>
        have hrf : rest.length ≤ f := by simpa using hf
        have hrg : rest.length ≤ g := by simpa using hg
        show substFuel env (f + 1) (c :: rest) = substFuel env (g + 1) (c :: rest)
        simp only [substFuel]
        by_cases h1 : c = '$'
        · simp only [if_pos h1]
          have hlen : (matchAfterDollar rest).2.length ≤ rest.length :=
            matchAfterDollar_snd_length rest
          rw [ih g _ (le_trans hlen hrf) (le_trans hlen hrg)]
        · simp only [if_neg h1]
          by_cases h2 : c = '\\' ∧ rest.head? = some '$'
          · simp only [if_pos h2]
            have hlen : (matchAfterDollar rest.tail).2.length ≤ rest.length :=
              le_trans (matchAfterDollar_snd_length rest.tail)
                (by cases rest <;> simp)
            rw [ih g _ (le_trans hlen hrf) (le_trans hlen hrg)]
          · simp only [if_neg h2]
            rw [ih g rest hrf hrg]

theorem subst_nil (env : Env) : substituteVariables [] env = some [] := rfl

theorem subst_copy (c : Char) (rest : List Char) (env : Env)
    (hc : c ≠ '$') (hb : ¬(c = '\\' ∧ rest.head? = some '$')) :
    substituteVariables (c :: rest) env =
      (substituteVariables rest env).map (fun t => c :: t) := by
  show substFuel env (rest.length + 1) (c :: rest) = _
  simp only [substFuel, if_neg hc, if_neg hb]
  rfl

theorem subst_dollar_none (rest : List Char) (env : Env)
    (h : tokenLookup ('$' :: (matchAfterDollar rest).1) env = none) :
    substituteVariables ('$' :: rest) env = none := by
  show substFuel env (rest.length + 1) ('$' :: rest) = none
  simp [substFuel, h]

theorem subst_dollar_some (rest : List Char) (env : Env) (r : List Char)
    (h : tokenLookup ('$' :: (matchAfterDollar rest).1) env = some r) :
    substituteVariables ('$' :: rest) env =
      (substituteVariables (matchAfterDollar rest).2 env).map (fun t => r ++ t) := by
  show substFuel env (rest.length + 1) ('$' :: rest) = _
  simp only [substFuel, if_pos rfl]
  rw [h]
  rw [substFuel_congr env rest.length (matchAfterDollar rest).2.length _
    (matchAfterDollar_snd_length rest) (le_refl _)]
  rfl

theorem subst_bs_none (rest : List Char) (env : Env)
    (h : tokenLookup ('\\' :: '$' :: (matchAfterDollar rest).1) env = none) :
    substituteVariables ('\\' :: '$' :: rest) env = none := by
  show substFuel env (rest.length + 1 + 1) ('\\' :: '$' :: rest) = none
  simp [substFuel, h]

theorem subst_bs_some (rest : List Char) (env : Env) (r : List Char)
    (h : tokenLookup ('\\' :: '$' :: (matchAfterDollar rest).1) env = some r) :
    substituteVariables ('\\' :: '$' :: rest) env =
      (substituteVariables (matchAfterDollar rest).2 env).map (fun t => r ++ t) := by
  show substFuel env (rest.length + 1 + 1) ('\\' :: '$' :: rest) = _
  simp only [substFuel]
  rw [if_pos (show True ∧ ('$' :: rest).head? = some '$' from ⟨trivial, rfl⟩)]
  simp only [List.tail_cons]
  rw [h]
  rw [substFuel_congr env (rest.length + 1) (matchAfterDollar rest).2.length _
    (le_trans (matchAfterDollar_snd_length rest) (Nat.le_succ _)) (le_refl _)]
  rfl

theorem takeWhile_name_brace (n t : List Char)
    (hn : ∀ c ∈ n, isNameChar c = true) :
    (n ++ '}' :: t).takeWhile isNameChar = n ∧
      (n ++ '}' :: t).dropWhile isNameChar = '}' :: t := by
  induction n with
  | nil =>
    constructor <;> simp [List.takeWhile, List.dropWhile, isNameChar]
  | cons c n ih =>
    have hc : isNameChar c = true := hn c (by simp)
    have ih' := ih (fun d hd => hn d (by simp [hd]))
    constructor <;> simp [List.takeWhile, List.dropWhile, hc, ih'.1, ih'.2]

theorem matchAfterDollar_brace (n t : List Char)
    (hn : ∀ c ∈ n, isNameChar c = true) :
    matchAfterDollar ('{' :: (n ++ '}' :: t)) = ('{' :: (n ++ ['}']), t) := by
  have h := takeWhile_name_brace n t hn
  simp [matchAfterDollar, eatChar, h.1, h.2]

theorem subst_no_dollar (s : List Char) (env : Env) (h : '$' ∉ s) :
    substituteVariables s env = some s := by
  induction s with
  | nil => rfl
  | cons c rest ih =>
    have hc : c ≠ '$' := fun hc => h (hc ▸ List.mem_cons_self c rest)
    have hr : '$' ∉ rest := fun hm => h (List.mem_cons_of_mem c hm)
    have hb : ¬(c = '\\' ∧ rest.head? = some '$') := by
      rintro ⟨-, hh⟩
      exact hr (List.mem_of_mem_head? hh)
    rw [subst_copy c rest env hc hb, ih hr]
    rfl

theorem subst_append_lit (s t : List Char) (env : Env)
    (h : '$' ∉ s) (hl : s.getLast? ≠ some '\\') :
    substituteVariables (s ++ t) env =
      (substituteVariables t env).map (fun x => s ++ x) := by
  induction s with
  | nil =>
    simp only [List.nil_append]
    cases substituteVariables t env <;> simp
  | cons c s ih =>
    have hc : c ≠ '$' := fun hc => h (hc ▸ List.mem_cons_self c s)
    have hs : '$' ∉ s := fun hm => h (List.mem_cons_of_mem c hm)
    have hb : ¬(c = '\\' ∧ ((s ++ t)).head? = some '$') := by
      rintro ⟨hcb, hh⟩
      cases s with
      | nil => exact hl (by simp [hcb])
      | cons d s' =>
        have : d = '$' := by simpa using hh
        exact hs (this ▸ List.mem_cons_self d s')
    have hl' : s.getLast? ≠ some '\\' := by
      cases s with
      | nil => simp
      | cons d s' =>
        rw [List.getLast?_cons_cons] at hl
        simpa using hl
    rw [List.cons_append, subst_copy c (s ++ t) env hc hb, ih hs hl']
    cases substituteVariables t env <;> rfl

theorem subst_var_token (n t : List Char) (env : Env)
    (hn : ∀ c ∈ n, isNameChar c = true) :
    substituteVariables ('$' :: '{' :: (n ++ '}' :: t)) env =
      (substituteVariables t env).map (fun x => (lookupEnv env n).getD [] ++ x) := by
  have hmd := matchAfterDollar_brace n t hn
  have htok : tokenLookup ('$' :: (matchAfterDollar ('{' :: (n ++ '}' :: t))).1) env
      = some ((lookupEnv env n).getD []) := by
    rw [hmd]
    show tokenLookup ('$' :: '{' :: (n ++ ['}'])) env = _
    have hlen : ('$' :: '{' :: (n ++ ['}'])).length = n.length + 3 := by simp
    have hdrop : (('$' :: '{' :: (n ++ ['}'])) : List Char).drop 2 = n ++ ['}'] := rfl
    have htake : ((n ++ ['}'])).take (('$' :: '{' :: (n ++ ['}'])).length - 3) = n := by
      rw [hlen, Nat.add_sub_cancel]
      exact List.take_left n ['}']
    rw [tokenLookup, if_neg (by rw [hlen]; omega), hdrop, htake]
  rw [subst_dollar_some _ env _ htok, hmd]

theorem subst_escaped_token (n t : List Char) (env : Env)
    (hn : ∀ c ∈ n, isNameChar c = true) :
    substituteVariables ('\\' :: '$' :: '{' :: (n ++ '}' :: t)) env =
      (substituteVariables t env).map
        (fun x => (lookupEnv env ('{' :: n)).getD [] ++ x) := by
  have hmd := matchAfterDollar_brace n t hn
  have htok : tokenLookup ('\\' :: '$' :: (matchAfterDollar ('{' :: (n ++ '}' :: t))).1) env
      = some ((lookupEnv env ('{' :: n)).getD []) := by
    rw [hmd]
    show tokenLookup ('\\' :: '$' :: '{' :: (n ++ ['}'])) env = _
    have hlen : ('\\' :: '$' :: '{' :: (n ++ ['}'])).length = n.length + 4 := by simp
    have hdrop : (('\\' :: '$' :: '{' :: (n ++ ['}'])) : List Char).drop 2
        = '{' :: (n ++ ['}']) := rfl
    have htake : ('{' :: (n ++ ['}'])).take
        (('\\' :: '$' :: '{' :: (n ++ ['}'])).length - 3) = '{' :: n := by
      have h1 : ('\\' :: '$' :: '{' :: (n ++ ['}'])).length - 3 = n.length + 1 := by
        rw [hlen]; omega
      rw [h1, List.take_succ_cons, List.take_left n ['}']]
    rw [tokenLookup, if_neg (by rw [hlen]; omega), hdrop, htake]
  rw [subst_bs_some _ env _ htok, hmd]

theorem escPass1_no_bs (s : List Char) (h : '\\' ∉ s) : escPass1 s = s := by
  induction s with
  | nil => rfl
  | cons c rest ih =>
    have hc : c ≠ '\\' := fun hc => h (hc ▸ List.mem_cons_self c rest)
    have hr : '\\' ∉ rest := fun hm => h (List.mem_cons_of_mem c hm)
    cases rest with
    | nil => cases c <;> simp_all [escPass1]
    | cons d rest' =>
      rw [show escPass1 (c :: d :: rest') = c :: escPass1 (d :: rest') from by
        conv_lhs => rw [escPass1.eq_def]
        simp [hc]]
      rw [ih hr]

theorem escPass2_no_bs (s : List Char) (h : '\\' ∉ s) : escPass2 s = s := by
  induction s with
  | nil => rfl
  | cons c rest ih =>
    have hc : c ≠ '\\' := fun hc => h (hc ▸ List.mem_cons_self c rest)
    have hr : '\\' ∉ rest := fun hm => h (List.mem_cons_of_mem c hm)
    cases rest with
    | nil => cases c <;> simp_all [escPass2]
    | cons d rest' =>
      rw [show escPass2 (c :: d :: rest') = c :: escPass2 (d :: rest') from by
        conv_lhs => rw [escPass2.eq_def]
        simp [hc]]
      rw [ih hr]

theorem parseEscape_no_bs (s : List Char) (h : '\\' ∉ s) : parseEscape s = s := by
  rw [parseEscape, escPass1_no_bs s h, escPass2_no_bs s h]

theorem parseEscape_bs_dollar (r : List Char) :
    parseEscape ('\\' :: '$' :: r) = '\\' :: '$' :: parseEscape r := by
  rw [parseEscape, parseEscape]
  rw [show escPass1 ('\\' :: '$' :: r) = '\\' :: '$' :: escPass1 r from by
    conv_lhs => rw [escPass1.eq_def]
    simp [escRepl]]
  rw [show escPass2 ('\\' :: '$' :: escPass1 r) = '\\' :: escPass2 ('$' :: escPass1 r) from by
    conv_lhs => rw [escPass2.eq_def]
    simp]
  rw [show escPass2 ('$' :: escPass1 r) = '$' :: escPass2 (escPass1 r) from by
    conv_lhs => rw [escPass2.eq_def]
    simp]

theorem multiLoop_lines_le (marker : List Char) (env : Env) :
    ∀ (lns : List (List Char)) (acc : List Char) (p : List Char × List (List Char)),
      multiLoop marker env acc lns = .ok p → p.2.length ≤ lns.length := by
  intro lns
  induction lns with
  | nil => intro acc p h; exact absurd h (by simp [multiLoop])
  | cons l rest ih =>
    intro acc p h
    rw [multiLoop] at h
    by_cases he : endsWithL marker l
    · rw [if_pos he] at h
      cases h
      simp
    · rw [if_neg he] at h
      cases hsub : (if marker = dq3
          then substituteVariables (stripEnd marker (stripEnd marker l)) env
          else some (stripEnd marker (stripEnd marker l))) with
      | none => rw [hsub] at h; exact absurd h (by simp)
      | some l2 =>
        rw [hsub] at h
        exact le_trans (ih _ p h) (Nat.le_succ _)

theorem multiLoop_ne_invalidKey (marker : List Char) (env : Env) :
    ∀ (lns : List (List Char)) (acc : List Char) (k : List Char),
      multiLoop marker env acc lns ≠ .err (.invalidKey k) := by
  intro lns
  induction lns with
  | nil => intro acc k h; exact absurd h (by simp [multiLoop])
  | cons l rest ih =>
    intro acc k h
    rw [multiLoop] at h
    by_cases he : endsWithL marker l
    · rw [if_pos he] at h; exact absurd h (by simp)
    · rw [if_neg he] at h
      cases hsub : (if marker = dq3
          then substituteVariables (stripEnd marker (stripEnd marker l)) env
          else some (stripEnd marker (stripEnd marker l))) with
      | none => rw [hsub] at h; exact absurd h (by simp)
      | some l2 => rw [hsub] at h; exact ih _ k h

theorem extractValue_lines_le (v : List Char) (lns : List (List Char)) (env : Env)
    (p : List Char × List (List Char)) (h : extractValue v lns env = .ok p) :
    p.2.length ≤ lns.length := by
  rw [extractValue] at h
  by_cases h1 : startsWithL ['\''] v = false ∧ startsWithL ['"'] v = false
  · rw [if_pos h1] at h
    cases hsub : substituteVariables (trimSpace (v.takeWhile (fun c => c ≠ '#'))) env with
    | none => rw [hsub] at h; exact absurd h (by simp)
    | some s => rw [hsub] at h; cases h; simp
  · rw [if_neg h1] at h
    by_cases h2 : isMultiLine v
    · rw [if_pos h2] at h
      exact multiLoop_lines_le _ env lns [] p h
    · rw [if_neg h2] at h
      rw [singleQuoted] at h
      cases hsc : scanClose (if startsWithL ['\''] v then '\'' else '"')
          (if startsWithL ['\''] v then '\'' else '"') (v.drop 1) with
      | none => rw [hsc] at h; exact absurd h (by simp)
      | some q =>
        rw [hsc] at h
        by_cases h3 : startsWithL [if startsWithL ['\''] v then '\'' else '"'] q.1
        · simp only [if_pos h3] at h; exact absurd h (by simp)
        · simp only [if_neg h3] at h
          cases hsub : (if (if startsWithL ['\''] v then '\'' else '"') = '"'
              then (substituteVariables q.1 env).map parseEscape
              else some q.1) with
          | none => rw [hsub] at h; exact absurd h (by simp)
          | some w =>
            rw [hsub] at h
            by_cases h4 : trimSpace (trimSpace q.2) ≠ [] ∧
                startsWithL ['#'] (trimSpace q.2) = false
            · simp only [if_pos h4] at h; exact absurd h (by simp)
            · simp only [if_neg h4] at h; cases h; simp

theorem extractValue_ne_invalidKey (v : List Char) (lns : List (List Char)) (env : Env)
    (k : List Char) : extractValue v lns env ≠ .err (.invalidKey k) := by
  intro h
  rw [extractValue] at h
  by_cases h1 : startsWithL ['\''] v = false ∧ startsWithL ['"'] v = false
  · rw [if_pos h1] at h
    cases hsub : substituteVariables (trimSpace (v.takeWhile (fun c => c ≠ '#'))) env with
    | none => rw [hsub] at h; exact absurd h (by simp)
    | some s => rw [hsub] at h; exact absurd h (by simp)
  · rw [if_neg h1] at h
    by_cases h2 : isMultiLine v
    · rw [if_pos h2] at h
      exact multiLoop_ne_invalidKey _ env lns [] k h
    · rw [if_neg h2] at h
      rw [singleQuoted] at h
      cases hsc : scanClose (if startsWithL ['\''] v then '\'' else '"')
          (if startsWithL ['\''] v then '\'' else '"') (v.drop 1) with
      | none => rw [hsc] at h; exact absurd h (by simp)
      | some q =>
        rw [hsc] at h
        by_cases h3 : startsWithL [if startsWithL ['\''] v then '\'' else '"'] q.1
        · simp only [if_pos h3] at h; exact absurd h (by simp)
        · simp only [if_neg h3] at h
          cases hsub : (if (if startsWithL ['\''] v then '\'' else '"') = '"'
              then (substituteVariables q.1 env).map parseEscape
              else some q.1) with
          | none => rw [hsub] at h; exact absurd h (by simp)
          | some w =>
            rw [hsub] at h
            by_cases h4 : trimSpace (trimSpace q.2) ≠ [] ∧
                startsWithL ['#'] (trimSpace q.2) = false
            · simp only [if_pos h4] at h; exact absurd h (by simp)
            · simp only [if_neg h4] at h; exact absurd h (by simp)

theorem scanClose_found (q : Char) :
    ∀ (s : List Char) (prev : Char) (aft : List Char),
      (∀ c ∈ s, c ≠ q) → s.getLast? ≠ some '\\' → (s = [] → prev ≠ '\\') →
      scanClose q prev (s ++ q :: aft) = some (s, aft) := by
  intro s
  induction s with
  | nil =>
    intro prev aft _ _ h3
    simp [scanClose, h3 rfl]
  | cons c s ih =>
    intro prev aft h1 h2 _
    have hc : c ≠ q := h1 c (by simp)
    have hcl : s = [] → c ≠ '\\' := by
      intro hs hcb
      subst hs
      exact h2 (by simp [hcb])
    have hl : s.getLast? ≠ some '\\' := by
      cases s with
      | nil => simp
      | cons d s' => rw [List.getLast?_cons_cons] at h2; exact h2
    rw [List.cons_append, scanClose,
      if_neg (by rintro ⟨hq, -⟩; exact hc hq),
      ih c aft (fun d hd => h1 d (by simp [hd])) hl hcl]
    rfl

theorem scanClose_none (q : Char) :
    ∀ (s : List Char) (prev : Char),
      (∀ a b, s = a ++ q :: b → (prev :: a).getLast? = some '\\') →
      scanClose q prev s = none := by
  intro s
  induction s with
  | nil => intro prev _; rfl
  | cons c s ih =>
    intro prev hno
    rw [scanClose]
    have hcond : ¬(c = q ∧ prev ≠ '\\') := by
      rintro ⟨hq, hp⟩
      exact hp (by simpa using hno [] s (by rw [hq]; rfl))
    rw [if_neg hcond,
      ih c (fun a b hab => by simpa [List.getLast?_cons_cons] using hno (c :: a) b (by simp [hab]))]
    rfl

theorem splitEq_not_mem (l : List Char) (h : '=' ∉ l) : splitEq l = none := by
  induction l with
  | nil => rfl
  | cons c r ih =>
    have hc : c ≠ '=' := fun hc => h (hc ▸ List.mem_cons_self c r)
    rw [splitEq, if_neg hc, ih (fun hm => h (List.mem_cons_of_mem c hm))]
    rfl

theorem splitEq_append (k r : List Char) (h : '=' ∉ k) :
    splitEq (k ++ '=' :: r) = some (k, r) := by
  induction k with
  | nil => simp [splitEq]
  | cons c k ih =>
    have hc : c ≠ '=' := fun hc => h (hc ▸ List.mem_cons_self c k)
    rw [List.cons_append, splitEq, if_neg hc,
      ih (fun hm => h (List.mem_cons_of_mem c hm))]
    rfl

theorem trimSpace_ne_nil (l : List Char) (c : Char) (hc : c ∈ l)
    (hsp : isSpaceGo c = false) : trimSpace l ≠ [] := by
  intro h
  rw [trimSpace] at h
  have h1 : (((l.dropWhile isSpaceGo).reverse.dropWhile isSpaceGo)) = [] := by
    simpa using congrArg List.reverse h
  have h2 : ∀ d ∈ (l.dropWhile isSpaceGo).reverse, isSpaceGo d = true :=
    List.dropWhile_eq_nil_iff.mp h1
  have h3 : ∀ d ∈ l.dropWhile isSpaceGo, isSpaceGo d = true := by
    intro d hd
    exact h2 d (List.mem_reverse.mpr hd)
  have h4 : ∀ d ∈ l, isSpaceGo d = true := by
    intro d hd
    rw [← List.takeWhile_append_dropWhile (p := isSpaceGo) (l := l)] at hd
    rcases List.mem_append.mp hd with h | h
    · exact List.mem_takeWhile_imp h
    · exact h3 d h
  rw [h4 c hc] at hsp
  exact absurd hsp (by simp)

theorem mem_stripStart (p l : List Char) (c : Char) (h : c ∉ l) :
    c ∉ stripStart p l := by
  rw [stripStart]
  by_cases hs : startsWithL p l
  · rw [if_pos hs]
    exact fun hm => h (List.drop_subset _ l hm)
  · rw [if_neg hs]; exact h

theorem startsWithL_cons_ne (a b : Char) (p s : List Char) (h : a ≠ b) :
    startsWithL (a :: p) (b :: s) = false := by
  simp [startsWithL, h]

theorem stripEnd_of_not (p s : List Char) (h : endsWithL p s = false) :
    stripEnd p s = s := by
  rw [stripEnd, if_neg (by simp [h])]

theorem stripEnd_append_single (c : Char) (s : List Char) :
    stripEnd [c] (s ++ [c]) = s := by
  rw [stripEnd, if_pos]
  · simp [List.take_left]
  · show startsWithL [c].reverse (s ++ [c]).reverse = true
    rw [List.reverse_append]
    simp [startsWithL]

theorem join_map_newline (lns : List (List Char)) (h : lns ≠ []) :
    (lns.map (fun l => l ++ ['\n'])).join = joinedByNewline lns ++ ['\n'] := by
  induction lns with
  | nil => exact absurd rfl h
  | cons l rest ih =>
    cases rest with
    | nil => simp [joinedByNewline]
    | cons m rest' =>
      rw [List.map_cons,
        show ((l ++ ['\n']) :: List.map (fun x => x ++ ['\n']) (m :: rest')).join
          = (l ++ ['\n']) ++ (List.map (fun x => x ++ ['\n']) (m :: rest')).join from rfl,
        ih (by simp),
        show joinedByNewline (l :: m :: rest') = l ++ '\n' :: joinedByNewline (m :: rest')
          from rfl]
      simp

theorem stripEnd_join_newline (lns : List (List Char)) :
    stripEnd ['\n'] ((lns.map (fun l => l ++ ['\n'])).join) = joinedByNewline lns := by
  cases lns with
  | nil =>
    show stripEnd ['\n'] [] = []
    rw [stripEnd_of_not _ _ (by rfl)]
  | cons l rest =>
    rw [join_map_newline (l :: rest) (by simp), stripEnd_append_single]

theorem multiLoop_no_close (marker : List Char) (env : Env) :
    ∀ (lns : List (List Char)) (acc : List Char),
      (∀ l ∈ lns, endsWithL marker l = false) →
      (∀ l ∈ lns, (if marker = dq3
          then substituteVariables (stripEnd marker (stripEnd marker l)) env
          else some (stripEnd marker (stripEnd marker l))) ≠ none) →
      multiLoop marker env acc lns = .err .unterminatedMultiLine := by
  intro lns
  induction lns with
  | nil => intro acc _ _; rfl
  | cons l rest ih =>
    intro acc h1 h2
    rw [multiLoop, if_neg (by simp [h1 l (by simp)])]
    cases hsub : (if marker = dq3
        then substituteVariables (stripEnd marker (stripEnd marker l)) env
        else some (stripEnd marker (stripEnd marker l))) with
    | none => exact absurd hsub (h2 l (by simp))
    | some l2 =>
      exact ih _ (fun d hd => h1 d (by simp [hd])) (fun d hd => h2 d (by simp [hd]))

theorem multiLoop_roundtrip (env : Env) :
    ∀ (lns : List (List Char)) (acc : List Char),
      (∀ l ∈ lns, endsWithL dq3 l = false ∧ '$' ∉ l ∧ '\\' ∉ l) →
      multiLoop dq3 env acc (lns ++ [dq3]) =
        .ok (stripEnd ['\n'] (acc ++ (lns.map (fun l => l ++ ['\n'])).join), []) := by
  intro lns
  induction lns with
  | nil =>
    intro acc _
    rw [List.nil_append, multiLoop, if_pos (by decide)]
    simp
  | cons l rest ih =>
    intro acc h
    obtain ⟨he, hd, hb⟩ := h l (by simp)
    rw [List.cons_append, multiLoop, if_neg (by simp [he]), if_pos rfl]
    rw [stripEnd_of_not _ _ he, stripEnd_of_not _ _ he, subst_no_dollar l env hd]
    rw [show (match (some l : Option (List Char)) with
        | none => (Res.panic : Res (List Char × List (List Char)))
        | some l2 => multiLoop dq3 env (acc ++ parseEscape l2 ++ ['\n']) (rest ++ [dq3]))
        = multiLoop dq3 env (acc ++ parseEscape l ++ ['\n']) (rest ++ [dq3]) from rfl]
    rw [parseEscape_no_bs l hb, ih _ (fun d hd => h d (by simp [hd]))]
    simp

theorem parse_cons (l : List Char) (rest : List (List Char)) :
    Parse (l :: rest) = parseLoopF (rest.length + 1) (l :: rest) [] := rfl

theorem parseLoopF_entry (f : Nat) (k v : List Char) (rest : List (List Char)) (env : Env)
    (hk1 : startsWithL ['#'] (k ++ '=' :: v) = false)
    (hk3 : startsWithL exportSp (k ++ '=' :: v) = false)
    (hk4 : '=' ∉ k) :
    parseLoopF (f + 1) ((k ++ '=' :: v) :: rest) env =
      (if keyRegexMatch (trimSpace k) = false then .err (.invalidKey (trimSpace k))
       else match extractValue v rest env with
            | .panic => .panic
            | .err e => .err e
            | .ok vr => parseLoopF f vr.2 (envInsert env (trimSpace k) vr.1)) := by
  have hk2 : trimSpace (k ++ '=' :: v) ≠ [] :=
    trimSpace_ne_nil _ '=' (by simp) (by decide)
  rw [parseLoopF]
  rw [if_neg (by
    simp only [Bool.or_eq_true, not_or]
    constructor
    · simp [hk1]
    · intro hemp
      exact hk2 (by cases htr : trimSpace (k ++ '=' :: v) with
        | nil => rfl
        | cons a b => rw [htr] at hemp; exact absurd hemp (by simp)))]
  rw [show stripStart exportSp (k ++ '=' :: v) = k ++ '=' :: v from by
    rw [stripStart, if_neg (by simp [hk3])]]
  rw [splitEq_append k v hk4]

theorem parseLoopF_nil (f : Nat) (env : Env) : parseLoopF f [] env = .ok env := by
  cases f <;> rfl

theorem startsWithL_single_cons (a : Char) (s : List Char) :
    startsWithL [a] (a :: s) = true := by
  simp [startsWithL]

theorem startsWithL_head (a : Char) (p s : List Char)
    (h : startsWithL (a :: p) s = true) : startsWithL [a] s = true := by
  cases s with
  | nil => exact absurd h (by simp [startsWithL])
  | cons b s' =>
    rw [startsWithL] at h
    simp only [Bool.and_eq_true] at h
    simp [startsWithL, h.1]

theorem keyRegexMatch_iff (s : List Char) :
    keyRegexMatch s = true ↔ ∃ c t, s = c :: t ∧ isKeyStartChar c = true := by
  cases s with
  | nil => simp [keyRegexMatch, List.takeWhile]
  | cons c t =>
    cases h : isKeyStartChar c with
    | true =>
      simp only [keyRegexMatch, List.takeWhile, h]
      constructor
      · intro _; exact ⟨c, t, rfl, h⟩
      · intro _; simp
    | false =>
      simp only [keyRegexMatch, List.takeWhile, h]
      constructor
      · intro hh; exact absurd hh (by simp)
      · rintro ⟨c', t', heq, hk⟩
        obtain ⟨rfl, -⟩ := List.cons.injEq .. ▸ heq
        rw [h] at hk
        exact absurd hk (by simp)

/-- C1: the claim states that a substitution token directly preceded by a
backslash is left as-is by the Variable Substitutor, and that parsing
`K="\$\x7bA\x7d"` with `A` bound yields the literal text `$\x7bA\x7d`.  The
code instead consumes the backslash as part of the regex match and replaces
the whole match by the mapping's value for `m[2:len(m)-1]`, so `K` is bound
to the empty string — not the claimed literal and not `A`'s value. -/
theorem C1_counterexample :
    Parse [("A=1").toList, ("K=\"\\$\x7bA\x7d\"").toList]
      = .ok [(("K").toList, []), (("A").toList, ("1").toList)] ∧
    ([] : List Char) ≠ ("$\x7bA\x7d").toList ∧
    ([] : List Char) ≠ ("1").toList := by
  refine ⟨by decide, by decide, by decide⟩

/-- C1 (amended): an escaped token `\$\x7bNAME\x7d` is matched together
with its backslash and replaced by the mapping's value for the string
`\x7bNAME` when present and the empty string otherwise (it is not left
as-is); moreover escape decoding preserves a backslash standing before a
dollar sign, so no later pass strips it. -/
theorem C1_escaped_token_amended (n t : List Char) (env : Env)
    (hn : ∀ c ∈ n, isNameChar c = true) :
    substituteVariables ('\\' :: '$' :: '{' :: (n ++ '}' :: t)) env =
      (substituteVariables t env).map
        (fun x => (lookupEnv env ('{' :: n)).getD [] ++ x) ∧
    parseEscape ('\\' :: '$' :: t) = '\\' :: '$' :: parseEscape t :=
  ⟨subst_escaped_token n t env hn, parseEscape_bs_dollar t⟩

/-- Witness for C1: at `n = A`, `t = []` and a mapping binding `A` to `1`,
the escaped token `\$\x7bA\x7d` substitutes to the empty string and the
escape decoder keeps `\$` intact. -/
theorem C1_witness :
    substituteVariables (("\\$\x7bA\x7d").toList) [(("A").toList, ("1").toList)]
      = some [] ∧
    parseEscape (("\\$").toList) = ("\\$").toList := by
  have h := C1_escaped_token_amended (("A").toList) [] [(("A").toList, ("1").toList)]
    (by decide)
  exact ⟨h.1, h.2⟩

/-- C2: the claim states that `$NAME` and `$(NAME)` substitute like
`$\x7bNAME\x7d` and that `Parse` returns normally.  In the code the
replacement callback slices `match[2:len(match)-1]`, which for the
two-character match `$A` is the out-of-range slice `[2:1]`: `Parse`
panics.  For `$(A)` the matched text is `$(A` (the `)` is not part of the
match), the looked-up name is empty, and the parsed value is `)` rather
than `A`'s value. -/
theorem C2_variant_forms_fail :
    Parse [("A=1").toList, ("B=$A").toList] = .panic ∧
    Parse [("A=1").toList, ("B=$(A)").toList]
      = .ok [(("B").toList, (")").toList), (("A").toList, ("1").toList)] := by
  refine ⟨by decide, by decide⟩

/-- C3: the claim states the key `A-B` is rejected with `InvalidKey`.
`keyRegex` is anchored only at the start, so `A-B` (valid first character)
is accepted and stored. -/
theorem C3_counterexample :
    Parse [("A-B=1").toList] = .ok [(("A-B").toList, ("1").toList)] := by
  decide

/-- C3 (amended): for a single non-comment, non-export line split at its
first `=`, `Parse` fails with `InvalidKey` carrying the trimmed key if and
only if the trimmed key does not start with a character in `[A-Za-z_]`
(equivalently, `keyRegex` finds no match): the full identifier grammar is
not enforced beyond the first character, keys like `A-B` are accepted. -/
theorem C3_key_validation_amended (k r : List Char)
    (h1 : startsWithL ['#'] (k ++ '=' :: r) = false)
    (h3 : startsWithL exportSp (k ++ '=' :: r) = false)
    (h4 : '=' ∉ k) :
    (Parse [k ++ '=' :: r] = .err (.invalidKey (trimSpace k)) ↔
      ¬ ∃ c t, trimSpace k = c :: t ∧ isKeyStartChar c = true) := by
  have hstep : Parse [k ++ '=' :: r] = parseLoopF (0 + 1) [k ++ '=' :: r] [] := rfl
  rw [hstep, parseLoopF_entry 0 k r [] [] h1 h3 h4]
  rw [← keyRegexMatch_iff]
  constructor
  · intro h
    intro hmatch
    rw [if_neg (by simp [hmatch])] at h
    cases hex : extractValue r [] [] with
    | panic => rw [hex] at h; exact absurd h (by simp)
    | err e =>
      rw [hex] at h
      have he : e = .invalidKey (trimSpace k) := by
        have := Res.err.injEq (α := Env) e (Err.invalidKey (trimSpace k)) ▸ h
        simpa using h
      exact extractValue_ne_invalidKey r [] [] (trimSpace k) (he ▸ hex)
    | ok vr =>
      rw [hex] at h
      have hlen : vr.2.length ≤ 0 := extractValue_lines_le r [] [] vr hex
      have hnil : vr.2 = [] := List.length_eq_zero.mp (Nat.le_zero.mp hlen)
      have h' : parseLoopF 0 vr.2 (envInsert [] (trimSpace k) vr.1)
          = Res.err (Err.invalidKey (trimSpace k)) := h
      rw [hnil] at h'
      exact absurd h' (by simp [parseLoopF])
  · intro h
    rw [if_pos (by
      cases hkm : keyRegexMatch (trimSpace k) with
      | false => rfl
      | true => exact absurd hkm h)]

/-- Witness for C3: the key `1A` (digit first) is rejected with
`InvalidKey 1A`. -/
theorem C3_witness :
    Parse [("1A=x").toList] = .err (.invalidKey (("1A").toList)) := by
  have h := C3_key_validation_amended (("1A").toList) (("x").toList)
    (by decide) (by decide) (by decide)
  refine h.mpr ?_
  rintro ⟨c, t, heq, hk⟩
  rw [show trimSpace (("1A").toList) = ['1', 'A'] from by decide] at heq
  injection heq with hc ht
  rw [← hc] at hk
  exact absurd hk (by decide)

/-- C4: the claim states that content preceding the closing triple marker
on its last line is stripped of the marker and appended to the value.  The
code returns the accumulated value as soon as a pulled line ends with the
marker, discarding that line's content: the closing line `line2\"\"\"`
contributes nothing, so the value is `line1`, not `line1\nline2`. -/
theorem C4_counterexample :
    Parse [("K=\"\"\"").toList, ("line1").toList, ("line2\"\"\"").toList]
      = .ok [(("K").toList, ("line1").toList)] ∧
    ("line1").toList ≠ ("line1\nline2").toList := by
  refine ⟨by decide, by decide⟩

/-- C4 (amended): when a pulled line ends with the opening triple marker
the accumulated value — the previously pulled lines joined by newline,
with the trailing newline trimmed — is returned at once and the closing
line's own content is discarded; hence a `\"\"\"` value whose N content
lines do not end with the marker and whose closing marker stands on its
own line parses to the N lines joined by newline. -/
theorem C4_multiline_amended (lns : List (List Char))
    (h : ∀ l ∈ lns, endsWithL dq3 l = false ∧ '$' ∉ l ∧ '\\' ∉ l) :
    Parse ((("K=\"\"\"").toList) :: (lns ++ [("\"\"\"").toList]))
      = .ok [(("K").toList, joinedByNewline lns)] := by
  have hstep : Parse ((("K=\"\"\"").toList) :: (lns ++ [("\"\"\"").toList]))
      = parseLoopF ((lns ++ [("\"\"\"").toList]).length + 1)
          ((['K'] ++ '=' :: dq3) :: (lns ++ [dq3])) [] := rfl
  rw [hstep, parseLoopF_entry _ ['K'] dq3 _ [] (by decide) (by decide) (by decide)]
  rw [if_neg (by decide)]
  have hev : extractValue dq3 (lns ++ [dq3]) [] =
      .ok (joinedByNewline lns, []) := by
    rw [extractValue, if_neg (by decide), if_pos (by decide),
      if_pos (by decide), multiLoop_roundtrip [] lns [] h]
    rw [List.nil_append, stripEnd_join_newline]
  rw [hev]
  show parseLoopF (lns ++ [("\"\"\"").toList]).length []
      (envInsert [] (trimSpace ['K']) (joinedByNewline lns))
    = .ok [(("K").toList, joinedByNewline lns)]
  rw [parseLoopF_nil, show trimSpace ['K'] = ['K'] from by decide]
  rfl

/-- Witness for C4: a `\"\"\"` value spanning the two content lines `ab`
and `cd` parses to `ab\ncd`. -/
theorem C4_witness :
    Parse [("K=\"\"\"").toList, ("ab").toList, ("cd").toList, ("\"\"\"").toList]
      = .ok [(("K").toList, ("ab\ncd").toList)] := by
  have h := C4_multiline_amended [("ab").toList, ("cd").toList] (by decide)
  exact h

/-- C5: the claim states that a backslash-escaped `#` does not truncate an
unquoted value.  The code splits at the first `#` unconditionally:
`K=a\#b` parses to `a\`, not to `a#b`. -/
theorem C5_counterexample :
    Parse [("K=a\\#b").toList] = .ok [(("K").toList, ("a\\").toList)] ∧
    ("a\\").toList ≠ ("a#b").toList := by
  refine ⟨by decide, by decide⟩

/-- C5 (amended): an unquoted value is truncated at the first `#` whether
escaped or not, then trimmed of whitespace, then variable-substituted,
then escape-decoded, and no further input lines are consumed (the rest of
the line source is processed unchanged, with the key bound to the decoded
value). -/
theorem C5_unquoted_amended (v : List Char) (rest : List (List Char)) (s : List Char)
    (h1 : startsWithL ['\''] v = false) (h2 : startsWithL ['"'] v = false)
    (hs : substituteVariables (trimSpace (v.takeWhile (fun c => c ≠ '#'))) [] = some s) :
    Parse (('K' :: '=' :: v) :: rest)
      = parseLoopF rest.length rest [(['K'], parseEscape s)] := by
  have hstep : Parse (('K' :: '=' :: v) :: rest)
      = parseLoopF (rest.length + 1) ((['K'] ++ '=' :: v) :: rest) [] := rfl
  rw [hstep, parseLoopF_entry _ ['K'] v _ []
    (startsWithL_cons_ne '#' 'K' [] ('=' :: v) (by decide))
    (startsWithL_cons_ne 'e' 'K' ['x', 'p', 'o', 'r', 't', ' '] ('=' :: v) (by decide))
    (by decide)]
  rw [if_neg (by decide)]
  rw [show extractValue v rest [] = .ok (parseEscape s, rest) from by
    rw [extractValue, if_pos ⟨h1, h2⟩, hs]]
  show parseLoopF rest.length rest (envInsert [] (trimSpace ['K']) (parseEscape s))
      = parseLoopF rest.length rest [(['K'], parseEscape s)]
  rw [show trimSpace ['K'] = ['K'] from by decide]
  rfl

/-- Witness for C5: `K=value # comment` parses to `K -> value`, the inline
comment and surrounding whitespace discarded. -/
theorem C5_witness :
    Parse [("K=value # comment").toList] = .ok [(("K").toList, ("value").toList)] := by
  have h := C5_unquoted_amended (("value # comment").toList) [] (("value").toList)
    (by decide) (by decide) (by decide)
  exact h

/-- C6: every non-escaped `$`-brace token whose name is drawn from
`[A-Z0-9_]` is replaced, in one left-to-right pass with no recursive
re-substitution, by the mapping's value when the name is bound and by the
empty string otherwise: rendering any well-formed sequence of literal
segments and reference tokens and substituting it yields the segment-wise
substituted concatenation. -/
theorem C6_substitution (toks : List SubTok) (env : Env)
    (h : ∀ tk ∈ toks, goodTok tk) :
    substituteVariables ((toks.map renderTok).join) env
      = some ((toks.map (substTokSem env)).join) := by
  induction toks with
  | nil => rfl
  | cons tk rest ih =>
    have hrest := ih (fun d hd => h d (by simp [hd]))
    have hjoin : ((tk :: rest).map renderTok).join
        = renderTok tk ++ (rest.map renderTok).join := rfl
    have hjoin2 : ((tk :: rest).map (substTokSem env)).join
        = substTokSem env tk ++ (rest.map (substTokSem env)).join := rfl
    rw [hjoin, hjoin2]
    cases tk with
    | lit s =>
      obtain ⟨hd, hl⟩ := h (.lit s) (by simp)
      rw [show renderTok (.lit s) = s from rfl,
        subst_append_lit s _ env hd hl, hrest]
      rfl
    | var n =>
      obtain ⟨-, hn⟩ := h (.var n) (by simp)
      rw [show renderTok (.var n) = '$' :: '{' :: (n ++ ['}']) from rfl]
      rw [show ('$' :: '{' :: (n ++ ['}'])) ++ (rest.map renderTok).join
          = '$' :: '{' :: (n ++ '}' :: (rest.map renderTok).join) from by simp]
      rw [subst_var_token n _ env hn, hrest]
      rfl

/-- Witness for C6: with `A` bound to `1`, the token sequence rendering to
`$\x7bA\x7d$\x7bA\x7d` substitutes to `11`, and a reference to the unbound
name `UNKNOWN` substitutes to the empty string. -/
theorem C6_witness :
    substituteVariables (("$\x7bA\x7d$\x7bA\x7d").toList)
      [(("A").toList, ("1").toList)] = some (("11").toList) ∧
    substituteVariables (("$\x7bUNKNOWN\x7d").toList)
      [(("A").toList, ("1").toList)] = some [] := by
  constructor
  · exact C6_substitution [.var (("A").toList), .var (("A").toList)]
      [(("A").toList, ("1").toList)]
      (by
        intro tk htk
        simp only [List.mem_cons, List.not_mem_nil, or_false] at htk
        rcases htk with rfl | rfl
        · exact ⟨by decide, by decide⟩
        · exact ⟨by decide, by decide⟩)
  · exact C6_substitution [.var (("UNKNOWN").toList)]
      [(("A").toList, ("1").toList)]
      (by
        intro tk htk
        simp only [List.mem_cons, List.not_mem_nil, or_false] at htk
        rcases htk with rfl
        exact ⟨by decide, by decide⟩)

/-- C7: the quote-kind asymmetry.  A single-quoted value whose body
contains no quote character and does not end in a backslash is returned
literally — no substitution, no escape decoding — whatever `$`-tokens or
backslash sequences it contains; a double-quoted value under the same
closing-quote conditions undergoes variable substitution followed by
escape decoding. -/
theorem C7_quote_asymmetry :
    (∀ (s : List Char) (lines : List (List Char)) (env : Env),
       (∀ c ∈ s, c ≠ '\'') → s.getLast? ≠ some '\\' →
       extractValue ('\'' :: (s ++ ['\''])) lines env = .ok (s, lines)) ∧
    (∀ (s t : List Char) (lines : List (List Char)) (env : Env),
       (∀ c ∈ s, c ≠ '"') → s.getLast? ≠ some '\\' →
       substituteVariables s env = some t →
       extractValue ('"' :: (s ++ ['"'])) lines env = .ok (parseEscape t, lines)) := by
  constructor
  · intro s lines env hs hl
    have h1 : startsWithL dq3 ('\'' :: (s ++ ['\''])) = false :=
      startsWithL_cons_ne '"' '\'' ['"', '"'] _ (by decide)
    have hq : startsWithL ['\'', '\''] (s ++ ['\'']) = false := by
      cases s with
      | nil => decide
      | cons c s' =>
        rw [List.cons_append]
        exact startsWithL_cons_ne '\'' c ['\''] _ (Ne.symm (hs c (by simp)))
    have h2 : startsWithL sq3 ('\'' :: (s ++ ['\''])) = false := by
      show (decide ('\'' = '\'') && startsWithL ['\'', '\''] (s ++ ['\''])) = false
      rw [hq]
      simp
    have hml : isMultiLine ('\'' :: (s ++ ['\''])) = false := by
      rw [isMultiLine, h1, h2]
      rfl
    have hfound : scanClose '\'' '\'' (s ++ '\'' :: []) = some (s, []) :=
      scanClose_found '\'' s '\'' [] hs hl (fun _ => by decide)
    have hsw : startsWithL ['\''] s = false := by
      cases s with
      | nil => rfl
      | cons c s' => exact startsWithL_cons_ne '\'' c [] _ (Ne.symm (hs c (by simp)))
    rw [extractValue,
      if_neg (by
        rintro ⟨hf, -⟩
        rw [startsWithL_single_cons] at hf
        exact absurd hf (by simp)),
      if_neg (by simp [hml]),
      if_pos (startsWithL_single_cons '\'' (s ++ ['\'']))]
    show singleQuoted '\'' (s ++ '\'' :: []) lines env = .ok (s, lines)
    rw [singleQuoted]
    simp +decide [hfound, hsw]
  · intro s t lines env hs hl hsub
    have hq : startsWithL ['"', '"'] (s ++ ['"']) = false := by
      cases s with
      | nil => decide
      | cons c s' =>
        rw [List.cons_append]
        exact startsWithL_cons_ne '"' c ['"'] _ (Ne.symm (hs c (by simp)))
    have h1 : startsWithL dq3 ('"' :: (s ++ ['"'])) = false := by
      show (decide ('"' = '"') && startsWithL ['"', '"'] (s ++ ['"'])) = false
      rw [hq]
      simp
    have h2 : startsWithL sq3 ('"' :: (s ++ ['"'])) = false :=
      startsWithL_cons_ne '\'' '"' ['\'', '\''] _ (by decide)
    have hml : isMultiLine ('"' :: (s ++ ['"'])) = false := by
      rw [isMultiLine, h1, h2]
      rfl
    have hfound : scanClose '"' '"' (s ++ '"' :: []) = some (s, []) :=
      scanClose_found '"' s '"' [] hs hl (fun _ => by decide)
    have hsw : startsWithL ['"'] s = false := by
      cases s with
      | nil => rfl
      | cons c s' => exact startsWithL_cons_ne '"' c [] _ (Ne.symm (hs c (by simp)))
    rw [extractValue,
      if_neg (by
        rintro ⟨-, hf⟩
        rw [startsWithL_single_cons] at hf
        exact absurd hf (by simp)),
      if_neg (by simp [hml]),
      if_neg (by
        rw [startsWithL_cons_ne '\'' '"' [] _ (by decide)]
        simp)]
    show singleQuoted '"' (s ++ '"' :: []) lines env = .ok (parseEscape t, lines)
    rw [singleQuoted]
    simp +decide [hfound, hsw, hsub]

/-- Witness for C7: `'a $(B) \n'` extracts to the literal text
`a $(B) \n` (nine characters, backslash and `n` kept, no substitution of
`$(B)`), while `"line1\nline2"` extracts to `line1`, a real newline,
`line2`. -/
theorem C7_witness :
    extractValue (("'a $(B) \\n'").toList) [] [] = .ok (("a $(B) \\n").toList, []) ∧
    extractValue (("\"line1\\nline2\"").toList) [] []
      = .ok (("line1\nline2").toList, []) := by
  constructor
  · exact C7_quote_asymmetry.1 (("a $(B) \\n").toList) [] [] (by decide) (by decide)
  · exact C7_quote_asymmetry.2 (("line1\\nline2").toList) (("line1\\nline2").toList)
      [] [] (by decide) (by decide) (by decide)

/-- C8 (amended): a single-line quoted value with no unescaped closing
quote always fails with `UnterminatedQuote` (the check precedes
substitution, so no panic can pre-empt it); a triple-quoted value whose
source lines never end with the closing marker fails with
`UnterminatedMultiLine` provided no pulled line makes the substitutor
panic (for the `'''` marker no substitution runs, so the proviso is
vacuous); and an `extractValue` error propagates through `Parse` as that
same error kind, so no truncated value is ever stored. -/
theorem C8_unterminated_amended :
    (∀ (q : Char) (t : List Char) (lines : List (List Char)) (env : Env),
       (q = '\'' ∨ q = '"') → isMultiLine (q :: t) = false →
       (∀ a b, t = a ++ q :: b → (q :: a).getLast? = some '\\') →
       extractValue (q :: t) lines env = .err .unterminatedQuote) ∧
    (∀ (v : List Char) (lines : List (List Char)) (env : Env),
       isMultiLine v = true →
       (∀ l ∈ lines, endsWithL (if startsWithL dq3 v then dq3 else sq3) l = false) →
       (∀ l ∈ lines,
         (if (if startsWithL dq3 v then dq3 else sq3) = dq3
          then substituteVariables (stripEnd (if startsWithL dq3 v then dq3 else sq3)
            (stripEnd (if startsWithL dq3 v then dq3 else sq3) l)) env
          else some (stripEnd (if startsWithL dq3 v then dq3 else sq3)
            (stripEnd (if startsWithL dq3 v then dq3 else sq3) l))) ≠ none) →
       extractValue v lines env = .err .unterminatedMultiLine) ∧
    (∀ (v : List Char) (rest : List (List Char)) (e : Err),
       extractValue v rest [] = .err e →
       Parse ((['K'] ++ '=' :: v) :: rest) = .err e) := by
  refine ⟨?_, ?_, ?_⟩
  · intro q t lines env hq hml hno
    rcases hq with rfl | rfl
    · rw [extractValue,
        if_neg (by
          rintro ⟨hf, -⟩
          rw [startsWithL_single_cons] at hf
          exact absurd hf (by simp)),
        if_neg (by simp [hml]),
        if_pos (startsWithL_single_cons '\'' t)]
      rw [singleQuoted, show List.drop 1 ('\'' :: t) = t from rfl,
        scanClose_none '\'' t '\'' hno]
    · rw [extractValue,
        if_neg (by
          rintro ⟨-, hf⟩
          rw [startsWithL_single_cons] at hf
          exact absurd hf (by simp)),
        if_neg (by simp [hml]),
        if_neg (by
          rw [startsWithL_cons_ne '\'' '"' [] _ (by decide)]
          simp)]
      rw [singleQuoted, show List.drop 1 ('"' :: t) = t from rfl,
        scanClose_none '"' t '"' hno]
  · intro v lines env hml hclose hpanic
    rw [extractValue,
      if_neg (by
        rintro ⟨hf1, hf2⟩
        rcases Bool.or_eq_true _ _ ▸ hml with hh | hh
        · rw [startsWithL_head '"' ['"', '"'] v hh] at hf2
          exact absurd hf2 (by simp)
        · rw [startsWithL_head '\'' ['\'', '\''] v hh] at hf1
          exact absurd hf1 (by simp)),
      if_pos hml]
    exact multiLoop_no_close _ env lines [] hclose hpanic
  · intro v rest e hex
    have hstep : Parse ((['K'] ++ '=' :: v) :: rest)
        = parseLoopF (rest.length + 1) ((['K'] ++ '=' :: v) :: rest) [] := rfl
    rw [hstep, parseLoopF_entry rest.length ['K'] v rest []
      (startsWithL_cons_ne '#' 'K' [] _ (by decide))
      (startsWithL_cons_ne 'e' 'K' ['x', 'p', 'o', 'r', 't', ' '] _ (by decide))
      (by decide),
      if_neg (by decide), hex]

/-- C8: the claim's multiline half is not universal — when a pulled line
contains a malformed substitution token the substitutor panics before the
closing marker is (not) found: `K=\"\"\"` followed by the single line `$`
ends the input without a closing marker, yet `Parse` panics instead of
failing with `UnterminatedMultiLine`. -/
theorem C8_counterexample :
    Parse [("K=\"\"\"").toList, ("$").toList] = .panic ∧
    (Res.panic : Res Env) ≠ .err .unterminatedMultiLine := by
  refine ⟨by decide, by decide⟩

/-- Witness for C8: `\"abc` (no closing quote) is `UnterminatedQuote`;
`'''` with one pulled line `x` and exhausted input is
`UnterminatedMultiLine`; `K=\"abc` makes `Parse` report
`UnterminatedQuote`. -/
theorem C8_witness :
    extractValue (("\"abc").toList) [] [] = .err .unterminatedQuote ∧
    extractValue (("'''").toList) [("x").toList] [] = .err .unterminatedMultiLine ∧
    Parse [("K=\"abc").toList] = .err .unterminatedQuote := by
  refine ⟨?_, ?_, ?_⟩
  · refine C8_unterminated_amended.1 '"' (("abc").toList) [] [] (Or.inr rfl)
      (by decide) ?_
    intro a b hab
    exfalso
    have hm : '"' ∈ ("abc").toList := by
      rw [hab]
      simp
    exact absurd hm (by decide)
  · exact C8_unterminated_amended.2.1 (("'''").toList) [("x").toList] []
      (by decide) (by decide) (by decide)
  · exact C8_unterminated_amended.2.2 (("\"abc").toList) [] .unterminatedQuote
      (by decide)

/-- C9: the claim is not universal — substitution of the extracted value
runs before the trailing-text check, so a double-quoted value holding a
malformed token panics instead: `K=\"$\"x` has non-comment trailing text
`x`, yet `Parse` panics rather than failing with `UnexpectedCharacters`. -/
theorem C9_counterexample :
    Parse [("K=\"$\"x").toList] = .panic ∧
    (Res.panic : Res Env) ≠ .err .unexpectedCharacters := by
  refine ⟨by decide, by decide⟩

/-- C9 (amended): for a single-line quoted value whose closing quote is
found (clean body, and — in the double-quote case — substitution not
panicking), the result is `UnexpectedCharacters` exactly when the trailing
remainder is non-empty after trimming and does not start with `#`;
otherwise the trailing text is discarded and extraction succeeds with the
decoded value. -/
theorem C9_trailing_amended (q : Char) (s aft : List Char)
    (lines : List (List Char)) (env : Env) (v : List Char)
    (hq : q = '\'' ∨ q = '"')
    (hs : ∀ c ∈ s, c ≠ q) (hl : s.getLast? ≠ some '\\')
    (hml : isMultiLine (q :: (s ++ q :: aft)) = false)
    (hv : (if q = '"' then (substituteVariables s env).map parseEscape
           else some s) = some v) :
    extractValue (q :: (s ++ q :: aft)) lines env =
      if trimSpace (trimSpace aft) ≠ [] ∧ startsWithL ['#'] (trimSpace aft) = false
      then .err .unexpectedCharacters
      else .ok (v, lines) := by
  rcases hq with rfl | rfl
  · have hfound : scanClose '\'' '\'' (s ++ '\'' :: aft) = some (s, aft) :=
      scanClose_found '\'' s '\'' aft hs hl (fun _ => by decide)
    have hsw : startsWithL ['\''] s = false := by
      cases s with
      | nil => rfl
      | cons c s' => exact startsWithL_cons_ne '\'' c [] _ (Ne.symm (hs c (by simp)))
    rw [extractValue,
      if_neg (by
        rintro ⟨hf, -⟩
        rw [startsWithL_single_cons] at hf
        exact absurd hf (by simp)),
      if_neg (by simp [hml]),
      if_pos (startsWithL_single_cons '\'' (s ++ '\'' :: aft))]
    show singleQuoted '\'' (s ++ '\'' :: aft) lines env = _
    rw [singleQuoted]
    simp only [hfound]
    rw [if_neg (by simp [hsw]), hv]
  · have hfound : scanClose '"' '"' (s ++ '"' :: aft) = some (s, aft) :=
      scanClose_found '"' s '"' aft hs hl (fun _ => by decide)
    have hsw : startsWithL ['"'] s = false := by
      cases s with
      | nil => rfl
      | cons c s' => exact startsWithL_cons_ne '"' c [] _ (Ne.symm (hs c (by simp)))
    rw [extractValue,
      if_neg (by
        rintro ⟨-, hf⟩
        rw [startsWithL_single_cons] at hf
        exact absurd hf (by simp)),
      if_neg (by simp [hml]),
      if_neg (by
        rw [startsWithL_cons_ne '\'' '"' [] _ (by decide)]
        simp)]
    show singleQuoted '"' (s ++ '"' :: aft) lines env = _
    rw [singleQuoted]
    simp only [hfound]
    have hv' : Option.map parseEscape (substituteVariables s env) = some v := by
      simpa using hv
    rw [if_neg (by simp [hsw])]
    simp only [if_true, hv']

/-- Witness for C9: `\"a\"bogus` fails with `UnexpectedCharacters`, while
`\"a\" # c`'s trailing inline comment is discarded and the value `a` is
returned. -/
theorem C9_witness :
    extractValue (("\"a\"bogus").toList) [] [] = .err .unexpectedCharacters ∧
    extractValue (("\"a\" # c").toList) [] [] = .ok (("a").toList, []) := by
  constructor
  · have h := C9_trailing_amended '"' (("a").toList) (("bogus").toList) [] []
      (("a").toList) (Or.inr rfl) (by decide) (by decide) (by decide) (by decide)
    exact h.trans (by decide)
  · have h := C9_trailing_amended '"' (("a").toList) ((" # c").toList) [] []
      (("a").toList) (Or.inr rfl) (by decide) (by decide) (by decide) (by decide)
    exact h.trans (by decide)

/-- C10: a comment line is recognised only when `#` is the raw line's very
first character: a line of leading whitespace followed by `#` (and no `=`
anywhere) is not skipped — `Parse` fails with `InvalidLine`. -/
theorem C10_leading_whitespace_comment (w t : List Char) (rest : List (List Char))
    (hw : w ≠ []) (hsp : ∀ c ∈ w, isSpaceGo c = true)
    (h1 : '=' ∉ w) (h2 : '=' ∉ t) :
    Parse ((w ++ '#' :: t) :: rest) = .err .invalidLine := by
  have hstep : Parse ((w ++ '#' :: t) :: rest)
      = parseLoopF (rest.length + 1) ((w ++ '#' :: t) :: rest) [] := rfl
  rw [hstep, parseLoopF]
  rw [if_neg (by
    intro hcond
    rcases Bool.or_eq_true _ _ ▸ hcond with hh | hh
    · cases w with
      | nil => exact hw rfl
      | cons c w' =>
        have hcne : '#' ≠ c := by
          intro hc
          have := hsp c (by simp)
          rw [← hc] at this
          exact absurd this (by decide)
        rw [List.cons_append, startsWithL_cons_ne '#' c [] _ hcne] at hh
        exact absurd hh (by simp)
    · have hne := trimSpace_ne_nil (w ++ '#' :: t) '#' (by simp) (by decide)
      cases htr : trimSpace (w ++ '#' :: t) with
      | nil => exact hne htr
      | cons a b =>
        rw [htr] at hh
        exact absurd hh (by simp))]
  have hmem : '=' ∉ w ++ '#' :: t := by
    intro hm
    rcases List.mem_append.mp hm with hmw | hmt
    · exact h1 hmw
    · rcases List.mem_cons.mp hmt with hh | hh
      · exact absurd hh (by decide)
      · exact h2 hh
  rw [splitEq_not_mem _ (mem_stripStart exportSp _ '=' hmem)]

/-- Witness for C10: the line ` # hi` (one leading space) is not skipped
as a comment; `Parse` fails with `InvalidLine`. -/
theorem C10_witness : Parse [(" # hi").toList] = .err .invalidLine := by
  have h := C10_leading_whitespace_comment [' '] ((" hi").toList) []
    (by decide) (by decide) (by decide) (by decide)
  exact h

end Dotenv
